import Mathlib

/-!
Verification of the prediction-market trade indexer backend: the candle
aggregator (incremental per-trade upsert and set-oriented backfill), the
bucket open-time computation, the query endpoints for trades, candles and
markets, and the in-memory performance tracker.  All definitions are
shallow embeddings of the TypeScript source; prices and quantities are
fixed-point decimals per the specification, modelled as integer counts
of the minimal decimal unit (the NUMERIC operations used by the code —
comparison, max, min, sum — factor through that representation);
timestamps are milliseconds since the epoch (Int), and the candle table
is a function from its primary key to an optional row.
-/

namespace Indexer

/-- Candle intervals supported by the aggregator: `1s`, `1m`, `1h`. -/
inductive Interval where
  | s1
  | m1
  | h1
  deriving DecidableEq, Repr

/-- One row of the `candles` table.  The SQL column `open` is a reserved
word in Lean, so the field is named `opn`. -/
structure Candle where
  opn : ℤ
  high : ℤ
  low : ℤ
  close : ℤ
  volume : ℤ
  deriving DecidableEq, Repr

/-- The primary key of the `candles` table:
`(exchange, market_id, interval, open_time)`. -/
structure CandleKey where
  exchange : String
  marketId : String
  interval : Interval
  openTime : Int
  deriving DecidableEq, Repr

/-- The `candles` table, as a map from primary key to optional row. -/
def Store := CandleKey → Option Candle

/-- The empty `candles` table. -/
def emptyStore : Store := fun _ => none

/-- Shallow embedding of the UPSERT statement issued by
`CandleAggregator.updateCandle`: INSERT a row whose open, high, low and
close all equal the trade price and whose volume is the trade quantity;
ON CONFLICT update `high = GREATEST(candles.high, EXCLUDED.high)`,
`low = LEAST(candles.low, EXCLUDED.low)`, `close = EXCLUDED.close`,
`volume = candles.volume + EXCLUDED.volume`, leaving `open` untouched. -/
def upsertCandle (s : Store) (k : CandleKey) (price quantity : ℤ) : Store :=
  fun k' =>
    if k' = k then
      match s k with
      | none => some ⟨price, price, price, price, quantity⟩
      | some c => some ⟨c.opn, max c.high price, min c.low price, price, c.volume + quantity⟩
    else s k'

/-- Width of one bucket of each interval, in milliseconds. -/
def intervalMs : Interval → Int
  | .s1 => 1000
  | .m1 => 60000
  | .h1 => 3600000

/-- Truncation of a UTC instant (ms since epoch) to a boundary of width
`n` ms: the bucket open-time contract stated by the specification. -/
def utcTrunc (t n : Int) : Int := t - t.emod n

/-- Zeroing of the sub-`n` fields of a JS `Date` by local-time mutation
(`setMilliseconds` / `setSeconds` / `setMinutes`): the date is converted
to local time using the process timezone offset (`off` minutes east of
UTC, the negation of `Date.prototype.getTimezoneOffset`), the fields
below `n` ms are zeroed there, and the result is converted back. -/
def localFieldZero (t off n : Int) : Int :=
  let lms := t + off * 60000
  (lms - lms.emod n) - off * 60000

/-- Shallow embedding of `CandleAggregator.getOpenTime`: `1s` zeroes the
milliseconds, `1m` zeroes seconds and milliseconds, `1h` zeroes minutes,
seconds and milliseconds — all in local time via `Date` mutation. -/
def getOpenTime (t off : Int) : Interval → Int
  | .s1 => localFieldZero t off 1000
  | .m1 => localFieldZero t off 60000
  | .h1 => localFieldZero t off 3600000

/-- C1: a candle upsert for a trade of price `p` and quantity `q` inserts
`open = high = low = close = p`, `volume = q` when no row exists for the
key; when a row exists it updates `high = max(high, p)`,
`low = min(low, p)`, `close = p`, `volume = volume + q`, never modifies
`open`, and touches no other key. -/
theorem C1_upsert_semantics (s : Store) (k : CandleKey) (p q : ℤ) :
    (s k = none → upsertCandle s k p q k = some ⟨p, p, p, p, q⟩) ∧
    (∀ c : Candle, s k = some c →
      upsertCandle s k p q k =
        some ⟨c.opn, max c.high p, min c.low p, p, c.volume + q⟩) ∧
    (∀ c c' : Candle, s k = some c → upsertCandle s k p q k = some c' →
      c'.opn = c.opn) ∧
    (∀ k' : CandleKey, k' ≠ k → upsertCandle s k p q k' = s k') := by
  refine ⟨fun h => ?_, fun c h => ?_, fun c c' h h' => ?_, fun k' h => ?_⟩
  · simp [upsertCandle, h]
  · simp [upsertCandle, h]
  · simp only [upsertCandle, if_pos rfl, h] at h'
    cases h'
    rfl
  · simp [upsertCandle, h]

/-- Concrete key used by witnesses below. -/
def k0 : CandleKey := ⟨"kalshi", "M", .m1, 0⟩

/-- A second concrete key, differing from `k0` in the market id. -/
def k1 : CandleKey := ⟨"kalshi", "N", .m1, 0⟩

/-- A store holding a single candle at `k0`, built by one upsert. -/
def s0 : Store := upsertCandle emptyStore k0 2 3

/-- Witness for C1: evaluating the upsert semantics on the concrete
store `s0`, whose row at `k0` is `(2, 2, 2, 2, 3)`. -/
theorem C1_upsert_semantics_witness :
    upsertCandle s0 k0 5 7 k0 = some ⟨2, 5, 2, 5, 10⟩ ∧
    upsertCandle s0 k0 5 7 k1 = s0 k1 := by
  have h := C1_upsert_semantics s0 k0 5 7
  refine ⟨?_, h.2.2.2 k1 (by decide)⟩
  have hs : s0 k0 = some ⟨2, 2, 2, 2, 3⟩ := by decide
  have := h.2.1 ⟨2, 2, 2, 2, 3⟩ hs
  refine this.trans ?_
  decide

/-- C2 (code bug): at timestamp `1970-01-01T12:34:56.789Z`
(45296789 ms) with process timezone UTC+05:30 (offset 330 minutes),
`getOpenTime` for the `1h` interval yields `12:30:00Z` (45000000 ms),
the local-hour boundary, whereas truncating the UTC instant to the hour
yields `12:00:00Z` (43200000 ms): the code zeroes minutes in local time
and so disagrees with the specified UTC truncation. -/
theorem C2_getOpenTime_code_bug_eval :
    getOpenTime 45296789 330 Interval.h1 = 45000000 ∧
    utcTrunc 45296789 (intervalMs Interval.h1) = 43200000 ∧
    getOpenTime 45296789 330 Interval.h1 ≠
      utcTrunc 45296789 (intervalMs Interval.h1) := by
  refine ⟨by decide, by decide, by decide⟩

/-- A normalized trade as it reaches the aggregator: exchange, market,
price, quantity, timestamp (ms since epoch, UTC). -/
structure Trade where
  exchange : String
  marketId : String
  price : ℤ
  quantity : ℤ
  ts : Int
  deriving DecidableEq, Repr

/-- The candle key a trade falls into for a given interval, bucketed by
UTC truncation of its timestamp (both write paths truncate identically
when the process and session timezone is UTC; the timezone discrepancy
of the live path is settled separately for `getOpenTime`). -/
def keyOf (i : Interval) (t : Trade) : CandleKey :=
  ⟨t.exchange, t.marketId, i, utcTrunc t.ts (intervalMs i)⟩

/-- The incremental write path: feed the trades one at a time, in order,
through `updateCandle`-style upserts for the given interval, starting
from an empty candle table. -/
def aggregate (i : Interval) (L : List Trade) : Store :=
  L.foldl (fun s t => upsertCandle s (keyOf i t) t.price t.quantity) emptyStore

/-- The row invariant required by the specification:
`low ≤ open ≤ high`, `low ≤ close ≤ high`, `volume ≥ 0`. -/
def candleInv (c : Candle) : Prop :=
  c.low ≤ c.opn ∧ c.opn ≤ c.high ∧ c.low ≤ c.close ∧ c.close ≤ c.high ∧ 0 ≤ c.volume

instance (c : Candle) : Decidable (candleInv c) := by
  unfold candleInv
  infer_instance

/-- A store satisfies the invariant when every existing row does. -/
def storeInv (s : Store) : Prop :=
  ∀ k c, s k = some c → candleInv c

theorem storeInv_empty : storeInv emptyStore := by
  intro k c h
  simp [emptyStore] at h

theorem storeInv_upsert {s : Store} (hs : storeInv s) (k : CandleKey)
    {p q : ℤ} (hq : 0 ≤ q) : storeInv (upsertCandle s k p q) := by
  intro k' c h
  by_cases hk : k' = k
  · subst hk
    simp only [upsertCandle, if_pos rfl] at h
    cases hsk : s k' with
    | none =>
        rw [hsk] at h
        cases h
        exact ⟨le_refl _, le_refl _, le_refl _, le_refl _, hq⟩
    | some c0 =>
        rw [hsk] at h
        cases h
        obtain ⟨h1, h2, h3, h4, h5⟩ := hs k' c0 hsk
        refine ⟨le_trans (min_le_left _ _) h1,
                le_trans h2 (le_max_left _ _),
                min_le_right _ _,
                le_max_right _ _,
                add_nonneg h5 hq⟩
  · simp only [upsertCandle, if_neg hk] at h
    exact hs k' c h

/-- C3: after any sequence of aggregator upserts whose trades all have
nonnegative quantity, every candle row satisfies
`low ≤ open ≤ high`, `low ≤ close ≤ high` and `volume ≥ 0` — and the
invariant holds after every intermediate upsert, since every prefix of
the trade sequence is itself such a sequence. -/
theorem C3_candle_invariant (i : Interval) (L : List Trade)
    (hL : ∀ t ∈ L, 0 ≤ t.quantity) :
    ∀ k c, aggregate i L k = some c →
      c.low ≤ c.opn ∧ c.opn ≤ c.high ∧ c.low ≤ c.close ∧ c.close ≤ c.high ∧
        0 ≤ c.volume := by
  suffices h : storeInv (aggregate i L) by exact h
  unfold aggregate
  have main : ∀ (M : List Trade) (s : Store), storeInv s →
      (∀ t ∈ M, 0 ≤ t.quantity) →
      storeInv (M.foldl (fun s t => upsertCandle s (keyOf i t) t.price t.quantity) s) := by
    intro M
    induction M with
    | nil => intro s hs _; exact hs
    | cons t M ih =>
        intro s hs hM
        exact ih _ (storeInv_upsert hs _ (hM t (List.mem_cons_self t M)))
          (fun u hu => hM u (List.mem_cons_of_mem t hu))
  exact main L emptyStore storeInv_empty hL

/-- A concrete two-trade list used by witnesses: both trades land in the
same `1m` bucket of market `(kalshi, M)`. -/
def trades0 : List Trade :=
  [⟨"kalshi", "M", 50, 10, 1000⟩, ⟨"kalshi", "M", 60, 2, 2000⟩]

/-- Witness for C3: the invariant holds on the candle produced by the
concrete trade list `trades0`. -/
theorem C3_candle_invariant_witness :
    (∀ t ∈ trades0, 0 ≤ t.quantity) ∧
    ((50 : ℤ) ≤ 50 ∧ (50 : ℤ) ≤ 60 ∧ (50 : ℤ) ≤ 60 ∧ (60 : ℤ) ≤ 60 ∧
      (0 : ℤ) ≤ 12) := by
  constructor
  · decide
  · have h := C3_candle_invariant .m1 trades0 (by decide) k0 ⟨50, 60, 50, 60, 12⟩
    have hrow : aggregate .m1 trades0 k0 = some ⟨50, 60, 50, 60, 12⟩ := by decide
    exact h hrow

/-- The trades of the list that fall into bucket `k` at interval `i`:
one group of the GROUP BY in `CandleAggregator.backfillInterval`. -/
def tradesFor (i : Interval) (k : CandleKey) (L : List Trade) : List Trade :=
  L.filter (fun t => keyOf i t = k)

/-- The element selected by `(ARRAY_AGG(price ORDER BY timestamp ASC))[1]`
over a nonempty group `t :: ts`: the earliest-timestamp trade, with ties
resolved to the earlier list position (the specification fixes ties by
insertion order). -/
def firstByTs (t : Trade) (ts : List Trade) : Trade :=
  ts.foldl (fun u v => if v.ts < u.ts then v else u) t

/-- The element selected by `(ARRAY_AGG(price ORDER BY timestamp DESC))[1]`
over a nonempty group `t :: ts`: the latest-timestamp trade, with ties
resolved to the later list position. -/
def lastByTs (t : Trade) (ts : List Trade) : Trade :=
  ts.foldl (fun u v => if u.ts ≤ v.ts then v else u) t

/-- `MAX(price)` over a nonempty group `t :: ts`. -/
def maxPrice (t : Trade) (ts : List Trade) : ℤ :=
  ts.foldl (fun m v => max m v.price) t.price

/-- `MIN(price)` over a nonempty group `t :: ts`. -/
def minPrice (t : Trade) (ts : List Trade) : ℤ :=
  ts.foldl (fun m v => min m v.price) t.price

/-- `SUM(quantity)` over a nonempty group `t :: ts`. -/
def sumQty (t : Trade) (ts : List Trade) : ℤ :=
  ts.foldl (fun a v => a + v.quantity) t.quantity

/-- The candle row that the backfill SELECT computes for bucket `k`, or
`none` when no persisted trade falls into that bucket. -/
def backfillRow (i : Interval) (k : CandleKey) (L : List Trade) : Option Candle :=
  match tradesFor i k L with
  | [] => none
  | t :: ts =>
      some ⟨(firstByTs t ts).price, maxPrice t ts, minPrice t ts,
            (lastByTs t ts).price, sumQty t ts⟩

/-- The ON CONFLICT clause of the backfill INSERT: keep the stored
`open`, take `GREATEST`/`LEAST` against the recomputed high and low, and
overwrite `close` and `volume` (`volume = EXCLUDED.volume`, a plain
overwrite rather than a sum). -/
def backfillMerge (old : Option Candle) (n : Candle) : Candle :=
  match old with
  | none => n
  | some c => ⟨c.opn, max c.high n.high, min c.low n.low, n.close, n.volume⟩

/-- Shallow embedding of `CandleAggregator.backfillInterval`: the
set-oriented INSERT ... SELECT ... ON CONFLICT for one interval, applied
to the whole candle table at once. -/
def backfillInterval (s : Store) (i : Interval) (L : List Trade) : Store :=
  fun k =>
    match backfillRow i k L with
    | none => s k
    | some n => some (backfillMerge (s k) n)

/-- Shallow embedding of `CandleAggregator.backfillCandles`: run the
per-interval backfill for `1s`, then `1m`, then `1h`. -/
def backfillCandles (s : Store) (L : List Trade) : Store :=
  backfillInterval (backfillInterval (backfillInterval s .s1 L) .m1 L) .h1 L

theorem foldl_choice_mem (g : Trade → Trade → Trade)
    (hg : ∀ a b, g a b = a ∨ g a b = b) :
    ∀ (ts : List Trade) (t : Trade), ts.foldl g t ∈ t :: ts := by
  intro ts
  induction ts with
  | nil => intro t; simp
  | cons v vs ih =>
      intro t
      rw [List.foldl_cons]
      have hmem := ih (g t v)
      rcases List.mem_cons.mp hmem with h | h
      · rcases hg t v with h2 | h2
        · rw [h, h2]; exact List.mem_cons_self _ _
        · rw [h, h2]; exact List.mem_cons_of_mem _ (List.mem_cons_self _ _)
      · exact List.mem_cons_of_mem _ (List.mem_cons_of_mem _ h)

theorem firstByTs_mem (t : Trade) (ts : List Trade) : firstByTs t ts ∈ t :: ts :=
  foldl_choice_mem _ (fun a b => by by_cases h : b.ts < a.ts <;> simp [h]) ts t

theorem lastByTs_mem (t : Trade) (ts : List Trade) : lastByTs t ts ∈ t :: ts :=
  foldl_choice_mem _ (fun a b => by by_cases h : a.ts ≤ b.ts <;> simp [h]) ts t

theorem firstByTs_append (t v : Trade) (ts : List Trade)
    (h : (firstByTs t ts).ts ≤ v.ts) :
    firstByTs t (ts ++ [v]) = firstByTs t ts := by
  unfold firstByTs
  rw [List.foldl_append, List.foldl_cons, List.foldl_nil]
  exact if_neg (not_lt.mpr h)

theorem lastByTs_append (t v : Trade) (ts : List Trade)
    (h : (lastByTs t ts).ts ≤ v.ts) :
    lastByTs t (ts ++ [v]) = v := by
  unfold lastByTs
  rw [List.foldl_append, List.foldl_cons, List.foldl_nil]
  exact if_pos h

theorem maxPrice_append (t v : Trade) (ts : List Trade) :
    maxPrice t (ts ++ [v]) = max (maxPrice t ts) v.price := by
  unfold maxPrice
  rw [List.foldl_append, List.foldl_cons, List.foldl_nil]

theorem minPrice_append (t v : Trade) (ts : List Trade) :
    minPrice t (ts ++ [v]) = min (minPrice t ts) v.price := by
  unfold minPrice
  rw [List.foldl_append, List.foldl_cons, List.foldl_nil]

theorem sumQty_append (t v : Trade) (ts : List Trade) :
    sumQty t (ts ++ [v]) = sumQty t ts + v.quantity := by
  unfold sumQty
  rw [List.foldl_append, List.foldl_cons, List.foldl_nil]

theorem tradesFor_append_hit (i : Interval) (k : CandleKey) (L : List Trade)
    (v : Trade) (hv : keyOf i v = k) :
    tradesFor i k (L ++ [v]) = tradesFor i k L ++ [v] := by
  unfold tradesFor
  rw [List.filter_append]
  simp [hv]

theorem tradesFor_append_miss (i : Interval) (k : CandleKey) (L : List Trade)
    (v : Trade) (hv : keyOf i v ≠ k) :
    tradesFor i k (L ++ [v]) = tradesFor i k L := by
  unfold tradesFor
  rw [List.filter_append]
  simp [hv]

theorem backfillRow_snoc_miss (i : Interval) (k : CandleKey) (L : List Trade)
    (v : Trade) (hv : keyOf i v ≠ k) :
    backfillRow i k (L ++ [v]) = backfillRow i k L := by
  unfold backfillRow
  rw [tradesFor_append_miss i k L v hv]

theorem backfillRow_snoc_hit (i : Interval) (k : CandleKey) (L : List Trade)
    (v : Trade) (hv : keyOf i v = k)
    (hts : ∀ u ∈ tradesFor i k L, u.ts ≤ v.ts) :
    backfillRow i k (L ++ [v]) =
      some (match backfillRow i k L with
            | none => ⟨v.price, v.price, v.price, v.price, v.quantity⟩
            | some c => ⟨c.opn, max c.high v.price, min c.low v.price,
                         v.price, c.volume + v.quantity⟩) := by
  unfold backfillRow
  rw [tradesFor_append_hit i k L v hv]
  cases hG : tradesFor i k L with
  | nil => rfl
  | cons t ts =>
      have hfirst : (firstByTs t ts).ts ≤ v.ts := by
        apply hts
        rw [hG]
        exact firstByTs_mem t ts
      have hlast : (lastByTs t ts).ts ≤ v.ts := by
        apply hts
        rw [hG]
        exact lastByTs_mem t ts
      show some _ = some _
      simp only [List.append_eq, firstByTs_append t v ts hfirst,
        lastByTs_append t v ts hlast, maxPrice_append, minPrice_append,
        sumQty_append]

theorem aggregate_snoc (i : Interval) (L : List Trade) (v : Trade) :
    aggregate i (L ++ [v]) =
      upsertCandle (aggregate i L) (keyOf i v) v.price v.quantity := by
  unfold aggregate
  rw [List.foldl_append, List.foldl_cons, List.foldl_nil]

theorem backfillInterval_empty (i : Interval) (L : List Trade) (k : CandleKey) :
    backfillInterval emptyStore i L k = backfillRow i k L := by
  unfold backfillInterval
  cases h : backfillRow i k L with
  | none => rfl
  | some n => simp [backfillMerge, emptyStore]

theorem aggregate_eq_backfillRow (i : Interval) (L : List Trade)
    (hsort : List.Pairwise (fun a b => a.ts ≤ b.ts) L) (k : CandleKey) :
    aggregate i L k = backfillRow i k L := by
  revert hsort
  induction L using List.reverseRecOn generalizing k with
  | nil => intro _; rfl
  | append_singleton M v ih =>
      intro hsort
      obtain ⟨hM, _, hub⟩ := List.pairwise_append.mp hsort
      rw [aggregate_snoc]
      by_cases hk : keyOf i v = k
      · have hts : ∀ u ∈ tradesFor i k M, u.ts ≤ v.ts := by
          intro u hu
          exact hub u (List.mem_of_mem_filter hu) v (List.mem_singleton_self v)
        rw [backfillRow_snoc_hit i k M v hk hts]
        subst hk
        simp only [upsertCandle, if_pos rfl]
        rw [ih (keyOf i v) hM]
        cases backfillRow i (keyOf i v) M with
        | none => rfl
        | some c => rfl
      · have hk' : k ≠ keyOf i v := fun h => hk h.symm
        rw [backfillRow_snoc_miss i k M v hk]
        simp only [upsertCandle, if_neg hk']
        exact ih k hM

/-- C4: when the persisted trades are fed to the incremental per-trade
upsert path in timestamp order (the order in which the pipeline
processes them), the resulting candle table coincides, at every interval
and every bucket key, with the table produced by the set-oriented
backfill run over the same trades — equal open, high, low, close and
volume.  Ties in the SQL `ORDER BY timestamp` are modelled as resolved
by insertion order, as the specification prescribes for `open`. -/
theorem C4_backfill_matches_incremental (i : Interval) (L : List Trade)
    (hsort : List.Pairwise (fun a b => a.ts ≤ b.ts) L) (k : CandleKey) :
    aggregate i L k = backfillInterval emptyStore i L k := by
  rw [backfillInterval_empty]
  exact aggregate_eq_backfillRow i L hsort k

/-- Witness for C4: the two-trade list `trades0` is timestamp-sorted and
both write paths give its `1m` bucket the same row. -/
theorem C4_backfill_matches_incremental_witness :
    List.Pairwise (fun a b => a.ts ≤ b.ts) trades0 ∧
    aggregate .m1 trades0 k0 = backfillInterval emptyStore .m1 trades0 k0 ∧
    aggregate .m1 trades0 k0 = some ⟨50, 60, 50, 60, 12⟩ := by
  refine ⟨by decide, C4_backfill_matches_incremental .m1 trades0 (by decide) k0, by decide⟩

theorem backfillRow_none_of_ne (i : Interval) (k : CandleKey) (L : List Trade)
    (h : k.interval ≠ i) : backfillRow i k L = none := by
  unfold backfillRow
  have hnil : tradesFor i k L = [] := by
    unfold tradesFor
    rw [List.filter_eq_nil_iff]
    intro t _
    simp only [decide_eq_true_eq]
    intro hk
    apply h
    rw [← hk]
    rfl
  rw [hnil]

theorem backfillInterval_ne (s : Store) (i : Interval) (L : List Trade)
    (k : CandleKey) (h : k.interval ≠ i) : backfillInterval s i L k = s k := by
  unfold backfillInterval
  rw [backfillRow_none_of_ne i k L h]

theorem backfillInterval_congr {s s' : Store} (i : Interval) (L : List Trade)
    (k : CandleKey) (h : s k = s' k) :
    backfillInterval s i L k = backfillInterval s' i L k := by
  unfold backfillInterval
  rw [h]

theorem backfillMerge_idem (old : Option Candle) (n : Candle) :
    backfillMerge (some (backfillMerge old n)) n = backfillMerge old n := by
  cases old with
  | none =>
      cases n
      simp [backfillMerge]
  | some c =>
      simp only [backfillMerge]
      rw [max_assoc, max_self, min_assoc, min_self]

theorem backfillInterval_idem (s : Store) (i : Interval) (L : List Trade)
    (k : CandleKey) :
    backfillInterval (backfillInterval s i L) i L k = backfillInterval s i L k := by
  cases h : backfillRow i k L with
  | none =>
      simp only [backfillInterval, h]
  | some n =>
      simp only [backfillInterval, h]
      exact congrArg some (backfillMerge_idem (s k) n)

/-- C5: `backfillCandles` is idempotent: over a fixed set of persisted
trades, a second run of the three per-interval backfills leaves every
candle row exactly as the first run left it, from any starting table. -/
theorem C5_backfill_idempotent (s : Store) (L : List Trade) :
    backfillCandles (backfillCandles s L) L = backfillCandles s L := by
  funext k
  unfold backfillCandles
  cases hi : k.interval with
  | s1 =>
      have h1 : k.interval ≠ Interval.h1 := by rw [hi]; decide
      have hm : k.interval ≠ Interval.m1 := by rw [hi]; decide
      rw [backfillInterval_ne _ _ _ _ h1, backfillInterval_ne _ _ _ _ hm,
          backfillInterval_ne _ _ _ _ h1, backfillInterval_ne _ _ _ _ hm]
      have hXk :
          backfillInterval (backfillInterval (backfillInterval s .s1 L) .m1 L) .h1 L k =
            backfillInterval s .s1 L k := by
        rw [backfillInterval_ne _ _ _ _ h1, backfillInterval_ne _ _ _ _ hm]
      rw [backfillInterval_congr .s1 L k hXk]
      exact backfillInterval_idem s .s1 L k
  | m1 =>
      have h1 : k.interval ≠ Interval.h1 := by rw [hi]; decide
      have hs1 : k.interval ≠ Interval.s1 := by rw [hi]; decide
      rw [backfillInterval_ne _ _ _ _ h1, backfillInterval_ne _ _ _ _ h1]
      have hXk :
          backfillInterval
              (backfillInterval (backfillInterval (backfillInterval s .s1 L) .m1 L) .h1 L)
              .s1 L k =
            backfillInterval (backfillInterval s .s1 L) .m1 L k := by
        rw [backfillInterval_ne _ _ _ _ hs1, backfillInterval_ne _ _ _ _ h1]
      rw [backfillInterval_congr .m1 L k hXk]
      exact backfillInterval_idem (backfillInterval s .s1 L) .m1 L k
  | h1 =>
      have hs1 : k.interval ≠ Interval.s1 := by rw [hi]; decide
      have hm : k.interval ≠ Interval.m1 := by rw [hi]; decide
      have hXk :
          backfillInterval
              (backfillInterval
                (backfillInterval (backfillInterval (backfillInterval s .s1 L) .m1 L) .h1 L)
                .s1 L)
              .m1 L k =
            backfillInterval (backfillInterval (backfillInterval s .s1 L) .m1 L) .h1 L k := by
        rw [backfillInterval_ne _ _ _ _ hm, backfillInterval_ne _ _ _ _ hs1]
      rw [backfillInterval_congr .h1 L k hXk]
      exact backfillInterval_idem (backfillInterval (backfillInterval s .s1 L) .m1 L) .h1 L k

/-- Errors the database client can raise from `db.query`. -/
inductive DbErr where
  | queryFailed
  deriving DecidableEq, Repr

/-- Shallow embedding of `CandleAggregator.updateCandle` including its
try/catch: the upsert is attempted, and on a store error the catch
block only logs, so the async function resolves normally and the error
never leaves it.  `dbOutcome` is the result of the `db.query` call; the
returned store is the table after the call. -/
def updateCandleRun (s : Store) (k : CandleKey) (price quantity : ℤ)
    (dbOutcome : Except DbErr Unit) : Except DbErr Store :=
  match dbOutcome with
  | .ok _ => .ok (upsertCandle s k price quantity)
  | .error _ => .ok s

/-- Counterexample to C7: when `db.query` fails during a candle upsert,
`updateCandle` resolves successfully with the table unchanged — the
error is absorbed by the catch block instead of propagating to the
caller. -/
theorem C7_counterexample :
    updateCandleRun emptyStore k0 1 1 (Except.error DbErr.queryFailed) =
      Except.ok emptyStore := rfl

/-- C7 (amended): a store error during a candle upsert is caught inside
`updateCandle`, which logs it and resolves normally with the candle
table unchanged; only a successful `db.query` applies the upsert.  The
error does not propagate to `processTrade` or its caller. -/
theorem C7_store_error_absorbed (s : Store) (k : CandleKey) (p q : ℤ)
    (e : DbErr) :
    updateCandleRun s k p q (Except.error e) = Except.ok s ∧
    updateCandleRun s k p q (Except.ok ()) = Except.ok (upsertCandle s k p q) :=
  ⟨rfl, rfl⟩

/-- One row of the GET /trades/markets response. -/
structure MarketRow where
  exchange : String
  marketId : String
  tradeCount : Nat
  firstTrade : Int
  lastTrade : Int
  deriving DecidableEq, Repr

/-- The optional exchange filter of GET /trades/markets: a WHERE clause
is added only when the query value is truthy and equals `polymarket` or
`kalshi`. -/
def marketsFiltered (exchangeQ : Option String) (L : List Trade) : List Trade :=
  match exchangeQ with
  | some e =>
      if e = "polymarket" ∨ e = "kalshi" then L.filter (fun t => t.exchange = e)
      else L
  | none => L

/-- One step of key collection: append a key unless already seen. -/
def dedupStep (acc : List (String × String)) (k : String × String) :
    List (String × String) :=
  if k ∈ acc then acc else acc ++ [k]

/-- Distinct `(exchange, market_id)` pairs in first-appearance order:
the GROUP BY keys of the markets query. -/
def marketKeys (L : List Trade) : List (String × String) :=
  (L.map (fun t => (t.exchange, t.marketId))).foldl dedupStep []

/-- The trades of one GROUP BY group. -/
def groupTrades (L : List Trade) (k : String × String) : List Trade :=
  L.filter (fun t => t.exchange = k.1 ∧ t.marketId = k.2)

/-- `MIN(timestamp)` of a group (0 for the empty group, which no
generated key produces). -/
def minTs (G : List Trade) : Int :=
  match G with
  | [] => 0
  | t :: ts => ts.foldl (fun a v => min a v.ts) t.ts

/-- `MAX(timestamp)` of a group. -/
def maxTs (G : List Trade) : Int :=
  match G with
  | [] => 0
  | t :: ts => ts.foldl (fun a v => max a v.ts) t.ts

/-- The response row for one market: exchange, market id,
`COUNT(*)`, `MIN(timestamp)`, `MAX(timestamp)`. -/
def marketRowOf (L : List Trade) (k : String × String) : MarketRow :=
  ⟨k.1, k.2, (groupTrades L k).length, minTs (groupTrades L k), maxTs (groupTrades L k)⟩

/-- The ordering used by the markets query: total trade count
descending (`ORDER BY trade_count DESC`). -/
def byCountDesc (a b : MarketRow) : Prop := b.tradeCount ≤ a.tradeCount

instance : DecidableRel byCountDesc := fun a b =>
  inferInstanceAs (Decidable (b.tradeCount ≤ a.tradeCount))

instance : IsTotal MarketRow byCountDesc :=
  ⟨fun a b => le_total b.tradeCount a.tradeCount⟩

instance : IsTrans MarketRow byCountDesc :=
  ⟨fun _ _ _ h1 h2 => le_trans h2 h1⟩

/-- Shallow embedding of the GET /trades/markets handler: group the
optionally exchange-filtered trades by `(exchange, market_id)`, compute
the per-market aggregates, order by total trade count descending, and
return at most 100 rows. -/
def marketsHandler (exchangeQ : Option String) (L : List Trade) : List MarketRow :=
  (List.insertionSort byCountDesc
    ((marketKeys (marketsFiltered exchangeQ L)).map
      (marketRowOf (marketsFiltered exchangeQ L)))).take 100

/-- Trades of market `k` within the last 10 minutes before `now`: the
recent-activity count the claim says the ordering uses first. -/
def recentCount (now : Int) (L : List Trade) (k : String × String) : Nat :=
  ((groupTrades L k).filter (fun t => now - 600000 ≤ t.ts)).length

/-- Concrete trade list refuting the claimed ordering: market `B` has
three old trades, market `A` has two trades within the last 10 minutes
of `now = 1000000`. -/
def tradesC6 : List Trade :=
  [⟨"kalshi", "B", 1, 1, 0⟩, ⟨"kalshi", "B", 1, 1, 1⟩, ⟨"kalshi", "B", 1, 1, 2⟩,
   ⟨"kalshi", "A", 1, 1, 999000⟩, ⟨"kalshi", "A", 1, 1, 999500⟩]

/-- Counterexample to C6: the handler lists `B` (zero recent trades,
three total) before `A` (two recent trades), so the output is not
ordered first by the number of trades in the last 10 minutes. -/
theorem C6_counterexample :
    (marketsHandler none tradesC6).map (fun r => r.marketId) = ["B", "A"] ∧
    recentCount 1000000 tradesC6 ("kalshi", "B") <
      recentCount 1000000 tradesC6 ("kalshi", "A") := by
  constructor
  · rfl
  · decide

theorem mem_foldl_dedup (l : List (String × String)) (acc : List (String × String))
    (k : String × String) (h : k ∈ l.foldl dedupStep acc) :
    k ∈ acc ∨ k ∈ l := by
  induction l generalizing acc with
  | nil => exact Or.inl h
  | cons a l ih =>
      rw [List.foldl_cons] at h
      rcases ih _ h with h2 | h2
      · unfold dedupStep at h2
        by_cases ha : a ∈ acc
        · rw [if_pos ha] at h2
          exact Or.inl h2
        · rw [if_neg ha] at h2
          rcases List.mem_append.mp h2 with h3 | h3
          · exact Or.inl h3
          · have hka : k = a := List.mem_singleton.mp h3
            refine Or.inr ?_
            rw [hka]
            exact List.mem_cons_self a l
      · exact Or.inr (List.mem_cons_of_mem a h2)

theorem mem_marketKeys {L : List Trade} {k : String × String}
    (h : k ∈ marketKeys L) : ∃ t ∈ L, t.exchange = k.1 ∧ t.marketId = k.2 := by
  unfold marketKeys at h
  rcases mem_foldl_dedup _ [] k h with h2 | h2
  · simp at h2
  · obtain ⟨t, ht, hk⟩ := List.mem_map.mp h2
    exact ⟨t, ht, by rw [← hk], by rw [← hk]⟩

/-- C6 (amended): the markets listing groups the trades by market,
returns only markets that have trade data (count at least 1), respects
the optional exchange filter, and is ordered by total trade count
descending — not by recent activity. -/
theorem C6_markets_by_total_count (exchangeQ : Option String) (L : List Trade) :
    List.Sorted byCountDesc (marketsHandler exchangeQ L) ∧
    (∀ r ∈ marketsHandler exchangeQ L, 1 ≤ r.tradeCount) ∧
    (∀ e, exchangeQ = some e → (e = "polymarket" ∨ e = "kalshi") →
      ∀ r ∈ marketsHandler exchangeQ L, r.exchange = e) := by
  have hmem : ∀ r ∈ marketsHandler exchangeQ L,
      ∃ k ∈ marketKeys (marketsFiltered exchangeQ L),
        r = marketRowOf (marketsFiltered exchangeQ L) k := by
    intro r hr
    have h1 : r ∈ List.insertionSort byCountDesc
        ((marketKeys (marketsFiltered exchangeQ L)).map
          (marketRowOf (marketsFiltered exchangeQ L))) :=
      List.mem_of_mem_take hr
    have h2 := (List.perm_insertionSort byCountDesc _).mem_iff.mp h1
    obtain ⟨k, hk, hrk⟩ := List.mem_map.mp h2
    exact ⟨k, hk, hrk.symm⟩
  refine ⟨?_, ?_, ?_⟩
  · exact (List.sorted_insertionSort byCountDesc _).sublist (List.take_sublist _ _)
  · intro r hr
    obtain ⟨k, hk, hrk⟩ := hmem r hr
    obtain ⟨t, ht, he, hm⟩ := mem_marketKeys hk
    have htg : t ∈ groupTrades (marketsFiltered exchangeQ L) k := by
      unfold groupTrades
      rw [List.mem_filter]
      exact ⟨ht, by simp [he, hm]⟩
    have : 0 < (groupTrades (marketsFiltered exchangeQ L) k).length :=
      List.length_pos.mpr (List.ne_nil_of_mem htg)
    rw [hrk]
    exact this
  · intro e hq hval r hr
    obtain ⟨k, hk, hrk⟩ := hmem r hr
    obtain ⟨t, ht, he, _⟩ := mem_marketKeys hk
    have htf : t.exchange = e := by
      subst hq
      have hF : marketsFiltered (some e) L =
          L.filter (fun t => decide (t.exchange = e)) := by
        show (if e = "polymarket" ∨ e = "kalshi"
              then L.filter (fun t => t.exchange = e) else L) = _
        rw [if_pos hval]
      rw [hF] at ht
      have := (List.mem_filter.mp ht).2
      simpa using this
    rw [hrk]
    show k.1 = e
    rw [← he, htf]

/-- Witness for C6 (amended): evaluating the amended properties at the
concrete filter `kalshi` over `trades0`. -/
theorem C6_markets_by_total_count_witness :
    List.Sorted byCountDesc (marketsHandler (some "kalshi") trades0) ∧
    (∀ r ∈ marketsHandler (some "kalshi") trades0, r.exchange = "kalshi") := by
  have h := C6_markets_by_total_count (some "kalshi") trades0
  exact ⟨h.1, fun r hr => h.2.2 "kalshi" rfl (Or.inr rfl) r hr⟩

/-- HTTP responses of the query endpoints, as far as the claims need
them: a 400 whose JSON body carries the error message, a 200 whose
store query used the given normalized limit, or a 500. -/
inductive ApiResp where
  | badRequest (error : String)
  | okJson (limitUsed : ℤ)
  | internalError
  deriving DecidableEq, Repr

/-- True exactly on 400 responses. -/
def ApiResp.isBad : ApiResp → Bool
  | .badRequest _ => true
  | _ => false

/-- Decimal digit run at the head of `cs` interpreted as a number, or
`none` when `cs` does not start with a digit — the digit-reading core of
JS `parseInt(s, 10)`. -/
def digitsVal (cs : List Char) : Option Nat :=
  match cs.takeWhile Char.isDigit with
  | [] => none
  | ds => some (ds.foldl (fun a c => 10 * a + (c.toNat - 48)) 0)

/-- JS `parseInt(s, 10)`: skip leading whitespace, read an optional
sign, then the longest digit run; `none` models `NaN`. -/
def parseIntJS (s : String) : Option Int :=
  let cs := s.data.dropWhile (fun c => c = ' ' ∨ c = '\t' ∨ c = '\n' ∨ c = '\r')
  match cs with
  | '-' :: rest => (digitsVal rest).map (fun n => -(n : Int))
  | '+' :: rest => (digitsVal rest).map (fun n => (n : Int))
  | _ => (digitsVal cs).map (fun n => (n : Int))

/-- The limit normalization shared by the query endpoints: when a
truthy limit string is supplied, the limit used is
`Math.min(Math.max(parseInt(limitStr, 10) || dflt, 1), cap)` — JS `||`
replaces the falsy values `NaN` and `0` by the default — and otherwise
it is the default. -/
def normalizeLimit (limitQ : Option String) (dflt cap : ℤ) : ℤ :=
  match limitQ with
  | none => dflt
  | some s =>
      if s.isEmpty then dflt
      else
        min (max (match parseIntJS s with
                  | none => dflt
                  | some 0 => dflt
                  | some v => v) 1) cap

/-- Missing-parameter test of the handlers: JS `!x` is true for an
absent or empty-string query value. -/
def missingQ : Option String → Bool
  | none => true
  | some s => s.isEmpty

/-- True when a truthy `start` or `end` value fails date parsing: the
handlers pass `new Date(value)` to `db.query` without validation, and an
Invalid Date makes the parameter serialization throw inside the
try/catch. -/
def dateBad (dateParse : String → Option Int) : Option String → Bool
  | none => false
  | some s => if s.isEmpty then false else (dateParse s).isNone

/-- True when a truthy `side` value is neither `buy` nor `sell`. -/
def sideBad : Option String → Bool
  | none => false
  | some s => if s.isEmpty then false else decide (s ≠ "buy" ∧ s ≠ "sell")

/-- Query parameters of GET /candles. -/
structure CandlesQuery where
  exchange : Option String
  marketId : Option String
  interval : Option String
  startQ : Option String
  endQ : Option String
  limit : Option String
  deriving DecidableEq, Repr

/-- Query parameters of GET /trades. -/
structure TradesQuery where
  exchange : Option String
  marketId : Option String
  side : Option String
  startQ : Option String
  endQ : Option String
  limit : Option String
  deriving DecidableEq, Repr

/-- Shallow embedding of the GET /candles handler: validate required
parameters, exchange and interval (each failure is a 400 carrying an
error body); normalize the limit; then run the query.  `dateParse`
models the JS `Date` constructor (`none` = Invalid Date): `start` and
`end` are never validated, and an Invalid Date throws during query
parameter serialization, which the catch-all turns into a 500, as does
a store failure (`dbOk = false`). -/
def candlesHandler (dateParse : String → Option Int) (dbOk : Bool)
    (q : CandlesQuery) : ApiResp :=
  if missingQ q.exchange ∨ missingQ q.marketId ∨ missingQ q.interval then
    .badRequest "Missing required parameters: exchange, marketId, interval"
  else if q.exchange ≠ some "polymarket" ∧ q.exchange ≠ some "kalshi" then
    .badRequest "Invalid exchange. Must be \"polymarket\" or \"kalshi\""
  else if q.interval ≠ some "1s" ∧ q.interval ≠ some "1m" ∧ q.interval ≠ some "1h" then
    .badRequest "Invalid interval. Must be \"1s\", \"1m\", or \"1h\""
  else if dateBad dateParse q.startQ ∨ dateBad dateParse q.endQ ∨ ¬dbOk then
    .internalError
  else
    .okJson (normalizeLimit q.limit 1000 5000)

/-- Shallow embedding of the GET /trades handler, analogous to the
candles handler: required exchange and marketId, validated exchange and
side, unvalidated start and end dates, limit default 100 and cap 1000. -/
def tradesHandler (dateParse : String → Option Int) (dbOk : Bool)
    (q : TradesQuery) : ApiResp :=
  if missingQ q.exchange ∨ missingQ q.marketId then
    .badRequest "Missing required parameters: exchange, marketId"
  else if q.exchange ≠ some "polymarket" ∧ q.exchange ≠ some "kalshi" then
    .badRequest "Invalid exchange. Must be \"polymarket\" or \"kalshi\""
  else if sideBad q.side then
    .badRequest "Invalid side. Must be \"buy\" or \"sell\""
  else if dateBad dateParse q.startQ ∨ dateBad dateParse q.endQ ∨ ¬dbOk then
    .internalError
  else
    .okJson (normalizeLimit q.limit 100 1000)

/-- Shallow embedding of the GET /trades/latest handler: no validation
at all; an unrecognized exchange silently drops the filter; limit
default 50 and cap 200. -/
def tradesLatestHandler (dbOk : Bool) (limitQ : Option String) : ApiResp :=
  if dbOk then .okJson (normalizeLimit limitQ 50 200) else .internalError

/-- A date parse under which the string `not-a-date` is invalid, as it
is for the JS `Date` constructor. -/
def dateParse0 : String → Option Int := fun _ => none

/-- Counterexample to C8: a GET /candles request whose `start` is the
invalid timestamp `not-a-date` (all other parameters valid, store
healthy) is answered with 500, not 400 — the handlers never validate
`start`/`end`, so the claim that every invalid parameter yields 400
fails. -/
theorem C8_counterexample :
    candlesHandler dateParse0 true
      ⟨some "kalshi", some "M", some "1m", some "not-a-date", none, none⟩ =
      ApiResp.internalError := by
  rfl

/-- The validation failures GET /candles answers with 400. -/
def candlesReqInvalid (q : CandlesQuery) : Prop :=
  (missingQ q.exchange ∨ missingQ q.marketId ∨ missingQ q.interval) ∨
  (q.exchange ≠ some "polymarket" ∧ q.exchange ≠ some "kalshi") ∨
  (q.interval ≠ some "1s" ∧ q.interval ≠ some "1m" ∧ q.interval ≠ some "1h")

/-- The validation failures GET /trades answers with 400. -/
def tradesReqInvalid (q : TradesQuery) : Prop :=
  (missingQ q.exchange ∨ missingQ q.marketId) ∨
  (q.exchange ≠ some "polymarket" ∧ q.exchange ≠ some "kalshi") ∨
  sideBad q.side = true

/-- C8 (amended): for GET /candles and GET /trades, a 400 (with an
error body) is returned exactly for a missing required parameter or an
invalid exchange, interval or side; an unparseable `start` or `end` is
NOT rejected with 400 but flows into the store query and surfaces as a
500, exactly as a store failure does. -/
theorem C8_status_characterization (dp : String → Option Int) (dbOk : Bool)
    (q : CandlesQuery) (r : TradesQuery) :
    ((candlesHandler dp dbOk q).isBad = true ↔ candlesReqInvalid q) ∧
    (candlesHandler dp dbOk q = ApiResp.internalError ↔
      ¬candlesReqInvalid q ∧
        (dateBad dp q.startQ = true ∨ dateBad dp q.endQ = true ∨ dbOk = false)) ∧
    ((tradesHandler dp dbOk r).isBad = true ↔ tradesReqInvalid r) ∧
    (tradesHandler dp dbOk r = ApiResp.internalError ↔
      ¬tradesReqInvalid r ∧
        (dateBad dp r.startQ = true ∨ dateBad dp r.endQ = true ∨ dbOk = false)) := by
  unfold candlesHandler tradesHandler candlesReqInvalid tradesReqInvalid
  refine ⟨?_, ?_, ?_, ?_⟩ <;>
    split_ifs with h1 h2 h3 h4 <;>
      simp_all [ApiResp.isBad]

theorem normalizeLimit_some (v : String) (dflt cap : ℤ) :
    normalizeLimit (some v) dflt cap =
      if v.isEmpty = true then dflt
      else
        min (max (match parseIntJS v with
                  | none => dflt
                  | some 0 => dflt
                  | some x => x) 1) cap := rfl

theorem normalizeLimit_bounds (s : Option String) (dflt cap : ℤ)
    (h1 : 1 ≤ dflt) (h2 : dflt ≤ cap) :
    1 ≤ normalizeLimit s dflt cap ∧ normalizeLimit s dflt cap ≤ cap := by
  cases s with
  | none => exact ⟨h1, h2⟩
  | some v =>
      rw [normalizeLimit_some]
      by_cases he : v.isEmpty = true
      · rw [if_pos he]
        exact ⟨h1, h2⟩
      · rw [if_neg he]
        exact ⟨le_min (le_max_right _ 1) (le_trans h1 h2), min_le_right _ _⟩

/-- C9: the query endpoints never reject the `limit` parameter: an
absent, non-numeric or zero limit silently becomes the endpoint default
(1000 for /candles, 100 for /trades, 50 for /trades/latest), every
value is clamped into `[1, cap]` (caps 5000, 1000 and 200), and an
otherwise-valid request succeeds with the normalized limit no matter
what the limit string is. -/
theorem C9_limit_normalization :
    (normalizeLimit none 1000 5000 = 1000 ∧ normalizeLimit none 100 1000 = 100 ∧
      normalizeLimit none 50 200 = 50) ∧
    (∀ s : String, parseIntJS s = none →
      normalizeLimit (some s) 1000 5000 = 1000 ∧
      normalizeLimit (some s) 100 1000 = 100 ∧
      normalizeLimit (some s) 50 200 = 50) ∧
    (∀ s : String, parseIntJS s = some 0 →
      normalizeLimit (some s) 1000 5000 = 1000 ∧
      normalizeLimit (some s) 100 1000 = 100 ∧
      normalizeLimit (some s) 50 200 = 50) ∧
    (∀ s : Option String,
      (1 ≤ normalizeLimit s 1000 5000 ∧ normalizeLimit s 1000 5000 ≤ 5000) ∧
      (1 ≤ normalizeLimit s 100 1000 ∧ normalizeLimit s 100 1000 ≤ 1000) ∧
      (1 ≤ normalizeLimit s 50 200 ∧ normalizeLimit s 50 200 ≤ 200)) ∧
    (∀ (dp : String → Option Int) (s : Option String),
      candlesHandler dp true ⟨some "kalshi", some "M", some "1m", none, none, s⟩ =
        ApiResp.okJson (normalizeLimit s 1000 5000) ∧
      tradesHandler dp true ⟨some "kalshi", some "M", none, none, none, s⟩ =
        ApiResp.okJson (normalizeLimit s 100 1000) ∧
      tradesLatestHandler true s = ApiResp.okJson (normalizeLimit s 50 200)) := by
  refine ⟨⟨rfl, rfl, rfl⟩, ?_, ?_, ?_, ?_⟩
  · intro s h
    refine ⟨?_, ?_, ?_⟩ <;>
      · rw [normalizeLimit_some]
        by_cases he : s.isEmpty = true
        · rw [if_pos he]
        · rw [if_neg he, h]
          decide
  · intro s h
    refine ⟨?_, ?_, ?_⟩ <;>
      · rw [normalizeLimit_some]
        by_cases he : s.isEmpty = true
        · rw [if_pos he]
        · rw [if_neg he, h]
          decide
  · intro s
    exact ⟨normalizeLimit_bounds s 1000 5000 (by decide) (by decide),
           normalizeLimit_bounds s 100 1000 (by decide) (by decide),
           normalizeLimit_bounds s 50 200 (by decide) (by decide)⟩
  · intro dp s
    exact ⟨rfl, rfl, rfl⟩

/-- Witness for C9: concrete limit strings — non-numeric `abc` falls
back to the default, `0` falls back to the default, and `999999` is
clamped to the cap. -/
theorem C9_limit_normalization_witness :
    normalizeLimit (some "abc") 1000 5000 = 1000 ∧
    normalizeLimit (some "0") 100 1000 = 100 ∧
    normalizeLimit (some "999999") 50 200 = 200 := by
  have h := C9_limit_normalization
  exact ⟨(h.2.1 "abc" (by decide)).1, (h.2.2.1 "0" (by decide)).2.1, by decide⟩

/-- One latency sample of the performance tracker:
`Math.max(0, indexedTs - tradeTs)`, clamped at zero when the source
timestamp is later than the indexing time. -/
def latencySample (tradeTs indexedTs : Int) : Int := max 0 (indexedTs - tradeTs)

/-- Shallow embedding of `PerformanceTracker.recordTrade` acting on one
per-exchange latency buffer: push the clamped sample, then keep only
the most recent 1000 samples (`slice(-1000)`). -/
def recordTrade (latencies : List Int) (tradeTs indexedTs : Int) : List Int :=
  let l := latencies ++ [latencySample tradeTs indexedTs]
  if 1000 < l.length then l.drop (l.length - 1000) else l

/-- The latency buffer after recording a sequence of
`(tradeTs, indexedTs)` pairs, starting from an empty tracker. -/
def latenciesOf (samples : List (Int × Int)) : List Int :=
  samples.foldl (fun acc p => recordTrade acc p.1 p.2) []

/-- `avgLatencyMs` of the stats snapshot: `Math.round` of the mean, 0
for an empty buffer; JS `Math.round(x)` is `⌊x + 1/2⌋`. -/
def avgLatencyMs (l : List Int) : Int :=
  if l.length = 0 then 0 else ⌊(l.sum : ℚ) / l.length + 1/2⌋

/-- `minLatencyMs` of the stats snapshot: `Math.min(...latencies)`, 0
for an empty buffer. -/
def minLatencyMs (l : List Int) : Int :=
  match l with
  | [] => 0
  | x :: xs => xs.foldl (fun a v => min a v) x

/-- `maxLatencyMs` of the stats snapshot: `Math.max(...latencies)`, 0
for an empty buffer. -/
def maxLatencyMs (l : List Int) : Int :=
  match l with
  | [] => 0
  | x :: xs => xs.foldl (fun a v => max a v) x

theorem recordTrade_nonneg {acc : List Int} (h : ∀ x ∈ acc, 0 ≤ x)
    (a b : Int) : ∀ x ∈ recordTrade acc a b, 0 ≤ x := by
  intro x hx
  unfold recordTrade at hx
  have hx2 : x ∈ acc ++ [latencySample a b] := by
    by_cases hlen : 1000 < (acc ++ [latencySample a b]).length
    · rw [if_pos hlen] at hx
      exact List.mem_of_mem_drop hx
    · rw [if_neg hlen] at hx
      exact hx
  rcases List.mem_append.mp hx2 with h3 | h3
  · exact h x h3
  · rw [List.mem_singleton.mp h3]
    exact le_max_left 0 _

theorem latenciesOf_nonneg (samples : List (Int × Int)) :
    ∀ x ∈ latenciesOf samples, 0 ≤ x := by
  unfold latenciesOf
  have main : ∀ (M : List (Int × Int)) (acc : List Int), (∀ x ∈ acc, 0 ≤ x) →
      ∀ x ∈ M.foldl (fun acc p => recordTrade acc p.1 p.2) acc, 0 ≤ x := by
    intro M
    induction M with
    | nil => intro acc h; exact h
    | cons p M ih =>
        intro acc h
        exact ih _ (recordTrade_nonneg h p.1 p.2)
  exact main samples [] (by intro x hx; simp at hx)

theorem foldl_min_nonneg {a : Int} (ha : 0 ≤ a) {xs : List Int}
    (hxs : ∀ x ∈ xs, 0 ≤ x) : 0 ≤ xs.foldl (fun a v => min a v) a := by
  induction xs generalizing a with
  | nil => exact ha
  | cons v vs ih =>
      rw [List.foldl_cons]
      exact ih (le_min ha (hxs v (List.mem_cons_self v vs)))
        (fun x hx => hxs x (List.mem_cons_of_mem v hx))

theorem foldl_max_nonneg {a : Int} (ha : 0 ≤ a) (xs : List Int) :
    0 ≤ xs.foldl (fun a v => max a v) a := by
  induction xs generalizing a with
  | nil => exact ha
  | cons v vs ih =>
      rw [List.foldl_cons]
      exact ih (le_trans ha (le_max_left a v))

/-- C10: every latency sample the tracker stores is nonnegative — a
trade whose source timestamp is later than its indexing time records 0
— and consequently the reported average, minimum and maximum latency
are nonnegative after any sequence of `recordTrade` calls. -/
theorem C10_latency_nonneg (samples : List (Int × Int)) :
    (∀ x ∈ latenciesOf samples, 0 ≤ x) ∧
    0 ≤ avgLatencyMs (latenciesOf samples) ∧
    0 ≤ minLatencyMs (latenciesOf samples) ∧
    0 ≤ maxLatencyMs (latenciesOf samples) := by
  have hall := latenciesOf_nonneg samples
  refine ⟨hall, ?_, ?_, ?_⟩
  · unfold avgLatencyMs
    by_cases hlen : (latenciesOf samples).length = 0
    · rw [if_pos hlen]
    · rw [if_neg hlen]
      have hsum : (0 : ℤ) ≤ (latenciesOf samples).sum := List.sum_nonneg hall
      have hq : (0 : ℚ) ≤ ((latenciesOf samples).sum : ℚ) /
          ((latenciesOf samples).length : ℚ) + 1/2 := by
        have hd : (0 : ℚ) ≤ ((latenciesOf samples).sum : ℚ) /
            ((latenciesOf samples).length : ℚ) :=
          div_nonneg (by exact_mod_cast hsum) (by positivity)
        linarith
      exact Int.le_floor.mpr (by exact_mod_cast hq)
  · cases hL : latenciesOf samples with
    | nil => exact le_refl 0
    | cons x xs =>
        show 0 ≤ xs.foldl (fun a v => min a v) x
        have hx : 0 ≤ x := hall x (by rw [hL]; exact List.mem_cons_self x xs)
        exact foldl_min_nonneg hx
          (fun v hv => hall v (by rw [hL]; exact List.mem_cons_of_mem x hv))
  · cases hL : latenciesOf samples with
    | nil => exact le_refl 0
    | cons x xs =>
        show 0 ≤ xs.foldl (fun a v => max a v) x
        have hx : 0 ≤ x := hall x (by rw [hL]; exact List.mem_cons_self x xs)
        exact foldl_max_nonneg hx xs

/-- Witness for C10: the tracker buffer for the samples `(5, 3)` (source
after indexing — clamped to 0) and `(0, 7)` is `[0, 7]`, and its
statistics are nonnegative. -/
theorem C10_latency_nonneg_witness :
    latenciesOf [(5, 3), (0, 7)] = [0, 7] ∧
    0 ≤ avgLatencyMs (latenciesOf [(5, 3), (0, 7)]) ∧
    0 ≤ minLatencyMs (latenciesOf [(5, 3), (0, 7)]) := by
  refine ⟨by decide, (C10_latency_nonneg [(5, 3), (0, 7)]).2.1,
    (C10_latency_nonneg [(5, 3), (0, 7)]).2.2.1⟩

end Indexer
